import Mathlib

/-!
Verification of the logit-adjustment training program (`main.py`).

The program trains a classifier on a long-tailed dataset and corrects for
class imbalance via logit adjustment.  The run mode is one of `baseline`,
`posthoc`, `loss`.  We shallowly embed the core of `main.py`:

* the per-class adjustment term `log(base_probs ** tau + 1e-12)`;
* the loss builder `build_loss_fn` and its closure `loss_fn`
  (sparse softmax cross entropy, optionally on shifted logits);
* the base-probability loading (lines 36-43), where a missing file is
  re-raised for modes `posthoc`/`loss` and tolerated for `baseline`;
* the sparse-categorical-accuracy metric accumulators;
* the epoch loop (`main`), with the model, its regularisation losses and
  the optimizer kept opaque, exactly as the program treats them.

Machine floats are modelled by real numbers; a Python exception
(`tf.errors.NotFoundError`, or the `TypeError` raised by `None ** tau`)
is modelled by `Except Unit`.
-/

/-- Run mode selector, `FLAGS.mode` in the source:
one of `'baseline'`, `'posthoc'`, `'loss'`. -/
inductive Mode where
  | baseline : Mode
  | posthoc : Mode
  | loss : Mode
deriving DecidableEq

/-- Argument of the logarithm in the adjustment term:
`base_probs ** tau + 1e-12` (source lines 111 and 148), for one class.
The exponentiation is real (`numpy`/TF float power). -/
noncomputable def adjTermArg (p tau : ℝ) : ℝ := p ^ tau + 1e-12

/-- Per-class adjustment term `tf.math.log(base_probs ** tau + 1e-12)`
(source lines 110-111 and 147-148), for one class with prior `p`. -/
noncomputable def adjTerm (p tau : ℝ) : ℝ := Real.log (adjTermArg p tau)

/-- One row of `logits + tf.math.log(base_probs ** tau + 1e-12)`
(source lines 147-148): the loss-mode shift, added class-wise.
Broadcasting over the batch is `List.map` of this row operation. -/
noncomputable def lossAdjustRow (row p : List ℝ) (tau : ℝ) : List ℝ :=
  List.zipWith (fun x pj => x + adjTerm pj tau) row p

/-- One row of `logits - tf.math.log(base_probs ** tau + 1e-12)`
(source lines 110-111): the post-hoc evaluation shift, subtracted
class-wise.  Broadcasting over the batch is `List.map` of this row. -/
noncomputable def posthocAdjustRow (row p : List ℝ) (tau : ℝ) : List ℝ :=
  List.zipWith (fun x pj => x - adjTerm pj tau) row p

/-- Per-example `tf.nn.sparse_softmax_cross_entropy_with_logits`
(source lines 149-150): `logsumexp(row) - row[label]`. -/
noncomputable def sparseCE (label : ℕ) (row : List ℝ) : ℝ :=
  Real.log ((row.map Real.exp).sum) - row.getD label 0

/-- Batch loss `tf.reduce_mean(loss, axis=0)` (source line 151): the mean
over the batch of the per-example cross entropies. -/
noncomputable def meanCE (labels : List ℕ) (logits : List (List ℝ)) : ℝ :=
  ((List.zipWith sparseCE labels logits).sum) /
    ((List.zipWith sparseCE labels logits).length : ℝ)

/-- Plain sparse categorical cross entropy written as the spec words it
(section 4.2): minus the log of the softmax probability of the true
class.  Second definition for the refinement claim C5, to be compared
with `sparseCE`, which is translated from the source. -/
noncomputable def specSparseCE (label : ℕ) (row : List ℝ) : ℝ :=
  -Real.log (Real.exp (row.getD label 0) / (row.map Real.exp).sum)

/-- Batch average of `specSparseCE`, as the spec words it:
"plain sparse categorical cross-entropy, averaged over the batch". -/
noncomputable def specMeanCE (labels : List ℕ) (logits : List (List ℝ)) : ℝ :=
  ((List.zipWith specSparseCE labels logits).sum) /
    ((List.zipWith specSparseCE labels logits).length : ℝ)

/-- Body of the closure `loss_fn(labels, logits)` built by `build_loss_fn`
(source lines 145-151).  When `use_la_loss` is set and `base_probs` is
`None`, the Python expression `base_probs ** tau` raises a `TypeError`
at call time, modelled by `Except.error ()`.  Otherwise the logits are
optionally shifted class-wise and the mean cross entropy is returned. -/
noncomputable def loss_fn (use_la_loss : Bool) (base_probs : Option (List ℝ))
    (tau : ℝ) (labels : List ℕ) (logits : List (List ℝ)) : Except Unit ℝ :=
  if use_la_loss then
    match base_probs with
    | none => Except.error ()
    | some p => Except.ok (meanCE labels (logits.map (fun row => lossAdjustRow row p tau)))
  else
    Except.ok (meanCE labels logits)

/-- The builder `build_loss_fn(use_la_loss, base_probs, tau)` (source
lines 134-153).  The Python function only defines and returns the inner
closure; no expression in its body can raise, so construction always
succeeds and any failure is deferred to the first call of the closure. -/
noncomputable def build_loss_fn (use_la_loss : Bool) (base_probs : Option (List ℝ))
    (tau : ℝ) : Except Unit (List ℕ → List (List ℝ) → Except Unit ℝ) :=
  Except.ok (loss_fn use_la_loss base_probs tau)

/-- Reading of the base-probability file (source lines 36-43).
`fileContents` is `some v` when the file exists and parses to the vector
`v`, and `none` when opening it raises `tf.errors.NotFoundError`.  The
except-clause re-raises for modes `posthoc` and `loss` and substitutes
`base_probs = None` otherwise. -/
def load_base_probs (fileContents : Option (List ℝ)) (mode : Mode) :
    Except Unit (Option (List ℝ)) :=
  match fileContents with
  | some v => Except.ok (some v)
  | none =>
    if mode = Mode.posthoc ∨ mode = Mode.loss then Except.error ()
    else Except.ok none

/-- Flag `FLAGS.mode == 'loss'` passed to `build_loss_fn` (source line 46). -/
def modeUsesLaLoss (mode : Mode) : Bool := decide (mode = Mode.loss)

/-- Flag `posthoc_adjusting = FLAGS.mode == 'posthoc'` (source line 51). -/
def posthoc_adjusting (mode : Mode) : Bool := decide (mode = Mode.posthoc)

/-- Helper of `argmaxIdx`: scans a list keeping the index `bi` and value
`bv` of the best element seen so far, replacing only on strictly greater
values, so the first maximum wins — the tie rule of `tf.argmax`, which
`SparseCategoricalAccuracy` uses. -/
def argmaxGo {α : Type} [LinearOrder α] (i bi : ℕ) (bv : α) : List α → ℕ
  | [] => bi
  | x :: xs => if bv < x then argmaxGo (i + 1) i x xs else argmaxGo (i + 1) bi bv xs

/-- Index of the first maximal element of a row of logits (`tf.argmax`
along the class axis); `0` on the empty row. -/
def argmaxIdx {α : Type} [LinearOrder α] : List α → ℕ
  | [] => 0
  | x :: xs => argmaxGo 1 0 x xs

/-- State of one `tf.keras.metrics.SparseCategoricalAccuracy`: the count
of correctly ranked examples and the count of examples seen since the
last `reset_states`. -/
structure AccState where
  correct : ℕ
  total : ℕ
deriving DecidableEq

/-- State of a freshly constructed or just-reset accuracy metric. -/
def accInit : AccState := ⟨0, 0⟩

/-- Number of examples of a batch whose predicted class (first argmax of
the logits row) equals the integer label. -/
noncomputable def countCorrect (labels : List ℕ) (logits : List (List ℝ)) : ℕ :=
  (List.zipWith (fun y row => if argmaxIdx row = y then 1 else 0) labels logits).sum

/-- Effect of `metric.update_state(y, logits)`: adds this batch's correct
predictions and its example count to the accumulator. -/
noncomputable def accUpdate (s : AccState) (labels : List ℕ)
    (logits : List (List ℝ)) : AccState :=
  ⟨s.correct + countCorrect labels logits, s.total + labels.length⟩

/-- Value of `metric.result()`: the fraction of examples seen since the
last reset that were ranked correctly (`0` when none were seen). -/
def accResult (s : AccState) : ℚ := (s.correct : ℚ) / (s.total : ℚ)

/-- Opaque collaborators of the training loop, as the spec's section 1
scopes them: the model (a parametrised forward function together with
its regularisation losses), the optimizer step, the two batch streams
and the epoch count.  `π` is the type of the trainable parameters and
`ι` the type of an input batch. -/
structure Collab (π ι : Type) where
  forward : π → Bool → ι → List (List ℝ)
  regLoss : π → ℝ
  applyGrads : π → ℝ → π
  trainBatches : List (ι × List ℕ)
  testBatches : List (ι × List ℕ)
  numEpochs : ℕ
  initParams : π

/-- Mutable state threaded through the loop of `main`: the trainable
parameters and the three accuracy accumulators (the adjusted-test one is
only ever touched in posthoc mode). -/
structure RunState (π : Type) where
  params : π
  train_acc_metric : AccState
  test_acc_metric : AccState
  test_adj_acc_metric : AccState

/-- What `main` reports at the end of one epoch (source lines 96-131):
the epoch's training accuracy, its test accuracy, and — only when
`posthoc_adjusting` — the logit-adjusted test accuracy. -/
structure EpochReport where
  trainAcc : ℚ
  testAcc : ℚ
  adjAcc : Option ℚ
deriving DecidableEq

/-- One iteration of the training loop body (source lines 77-93): forward
pass in training mode, loss (propagating any exception from `loss_fn`),
regularisation added, optimizer step, and the train-accuracy update with
the raw logits of the forward pass. -/
noncomputable def trainStep {π ι : Type} (M : Collab π ι)
    (lf : List ℕ → List (List ℝ) → Except Unit ℝ)
    (st : RunState π) (b : ι × List ℕ) : Except Unit (RunState π) :=
  let logits := M.forward st.params true b.1
  match lf b.2 logits with
  | Except.error e => Except.error e
  | Except.ok lv =>
    Except.ok { st with
      params := M.applyGrads st.params (lv + M.regLoss st.params),
      train_acc_metric := accUpdate st.train_acc_metric b.2 logits }

/-- Iteration of `trainStep` over the epoch's training batches, stopping
at the first exception (source line 77). -/
noncomputable def trainPass {π ι : Type} (M : Collab π ι)
    (lf : List ℕ → List (List ℝ) → Except Unit ℝ) :
    List (ι × List ℕ) → RunState π → Except Unit (RunState π)
  | [], st => Except.ok st
  | b :: bs, st =>
    match trainStep M lf st b with
    | Except.error e => Except.error e
    | Except.ok st' => trainPass M lf bs st'

/-- One iteration of the test loop body (source lines 104-112): forward
pass in inference mode, test-accuracy update with the raw logits, and,
when `posthoc_adjusting`, the adjusted-accuracy update with
`logits - log(base_probs ** tau + 1e-12)`; accessing `base_probs` when
it is `None` would raise, modelled by `Except.error`. -/
noncomputable def testStep {π ι : Type} (M : Collab π ι) (posthoc : Bool)
    (base_probs : Option (List ℝ)) (tau : ℝ)
    (st : RunState π) (b : ι × List ℕ) : Except Unit (RunState π) :=
  let logits := M.forward st.params false b.1
  let st1 := { st with test_acc_metric := accUpdate st.test_acc_metric b.2 logits }
  if posthoc then
    match base_probs with
    | none => Except.error ()
    | some p =>
      Except.ok { st1 with
        test_adj_acc_metric := accUpdate st1.test_adj_acc_metric b.2
          (logits.map (fun row => posthocAdjustRow row p tau)) }
  else
    Except.ok st1

/-- Iteration of `testStep` over the epoch's test batches (source line 104). -/
noncomputable def testPass {π ι : Type} (M : Collab π ι) (posthoc : Bool)
    (base_probs : Option (List ℝ)) (tau : ℝ) :
    List (ι × List ℕ) → RunState π → Except Unit (RunState π)
  | [], st => Except.ok st
  | b :: bs, st =>
    match testStep M posthoc base_probs tau st b with
    | Except.error e => Except.error e
    | Except.ok st' => testPass M posthoc base_probs tau bs st'

/-- One epoch of `main` (source lines 74-131): the train pass, the read
and reset of the train accuracy, the test pass, the read and reset of
the test accuracy and, in posthoc mode, of the adjusted test accuracy;
returns the state for the next epoch and the values reported. -/
noncomputable def runEpoch {π ι : Type} (M : Collab π ι)
    (lf : List ℕ → List (List ℝ) → Except Unit ℝ) (posthoc : Bool)
    (base_probs : Option (List ℝ)) (tau : ℝ) (st : RunState π) :
    Except Unit (RunState π × EpochReport) :=
  match trainPass M lf M.trainBatches st with
  | Except.error e => Except.error e
  | Except.ok st1 =>
    let trainA := accResult st1.train_acc_metric
    let st2 := { st1 with train_acc_metric := accInit }
    match testPass M posthoc base_probs tau M.testBatches st2 with
    | Except.error e => Except.error e
    | Except.ok st3 =>
      let testA := accResult st3.test_acc_metric
      let st4 := { st3 with test_acc_metric := accInit }
      if posthoc then
        Except.ok ({ st4 with test_adj_acc_metric := accInit },
          ⟨trainA, testA, some (accResult st4.test_adj_acc_metric)⟩)
      else
        Except.ok (st4, ⟨trainA, testA, none⟩)

/-- The epoch loop `for epoch in range(dataset.num_epochs)` (source line
74), collecting the per-epoch reports in order. -/
noncomputable def runEpochs {π ι : Type} (M : Collab π ι)
    (lf : List ℕ → List (List ℝ) → Except Unit ℝ) (posthoc : Bool)
    (base_probs : Option (List ℝ)) (tau : ℝ) :
    ℕ → RunState π → Except Unit (RunState π × List EpochReport)
  | 0, st => Except.ok (st, [])
  | n + 1, st =>
    match runEpoch M lf posthoc base_probs tau st with
    | Except.error e => Except.error e
    | Except.ok (st', rep) =>
      match runEpochs M lf posthoc base_probs tau n st' with
      | Except.error e => Except.error e
      | Except.ok (st'', reps) => Except.ok (st'', rep :: reps)

/-- The whole of `main` (source lines 20-131) with the collaborators
abstracted: load the base probabilities (fatal for modes `posthoc` and
`loss` when the file is absent), build the loss function with
`use_la_loss = (mode == 'loss')`, then run the epoch loop with
`posthoc_adjusting = (mode == 'posthoc')`, starting from fresh metric
accumulators.  Returns the sequence of per-epoch reports. -/
noncomputable def mainRun {π ι : Type} (M : Collab π ι) (mode : Mode)
    (fileContents : Option (List ℝ)) (tau : ℝ) :
    Except Unit (List EpochReport) :=
  match load_base_probs fileContents mode with
  | Except.error e => Except.error e
  | Except.ok base_probs =>
    match build_loss_fn (modeUsesLaLoss mode) base_probs tau with
    | Except.error e => Except.error e
    | Except.ok lf =>
      match runEpochs M lf (posthoc_adjusting mode) base_probs tau
          M.numEpochs ⟨M.initParams, accInit, accInit, accInit⟩ with
      | Except.error e => Except.error e
      | Except.ok (_, reps) => Except.ok reps

/-- Accumulator part of the loop state is fresh: every metric is in its
just-reset state. -/
def freshAccs {π : Type} (st : RunState π) : Prop :=
  st.train_acc_metric = accInit ∧ st.test_acc_metric = accInit ∧
    st.test_adj_acc_metric = accInit

/-- Degenerate instantiation of the collaborators (trivial parameters,
empty batch streams, one epoch), used to instantiate theorems about the
loop at a concrete input. -/
noncomputable def collabW : Collab Unit Unit where
  forward := fun _ _ _ => []
  regLoss := fun _ => 0
  applyGrads := fun p _ => p
  trainBatches := []
  testBatches := []
  numEpochs := 1
  initParams := ()

/-- Fresh run state over trivial parameters, for concrete instantiations. -/
def runStateW : RunState Unit := ⟨(), accInit, accInit, accInit⟩

lemma getD_zipWith (f : ℝ → ℝ → ℝ) :
    ∀ (l₁ l₂ : List ℝ) (j : ℕ), j < l₁.length → j < l₂.length →
      (List.zipWith f l₁ l₂).getD j 0 = f (l₁.getD j 0) (l₂.getD j 0) := by
  intro l₁
  induction l₁ with
  | nil => intro l₂ j h _; exact absurd h (Nat.not_lt_zero j)
  | cons x xs ih =>
    intro l₂ j h1 h2
    cases l₂ with
    | nil => exact absurd h2 (Nat.not_lt_zero j)
    | cons y ys =>
      cases j with
      | zero => simp
      | succ j =>
        simp only [List.zipWith, List.getD_cons_succ]
        exact ih ys j (Nat.succ_lt_succ_iff.mp h1) (Nat.succ_lt_succ_iff.mp h2)

lemma getD_replicate (c : ℝ) : ∀ (n j : ℕ), j < n → (List.replicate n c).getD j 0 = c := by
  intro n
  induction n with
  | zero => intro j h; exact absurd h (Nat.not_lt_zero j)
  | succ n ih =>
    intro j h
    cases j with
    | zero => simp [List.replicate]
    | succ j =>
      simp only [List.replicate, List.getD_cons_succ]
      exact ih j (Nat.succ_lt_succ_iff.mp h)

/-- C1.  The claim asserts that the post-hoc correction of evaluation
logits is `L + log(p ** tau + 1e-12)`, the same additive transform as
the one inside the loss.  At `L = [[0]]`, `p = [1]`, `tau = 1` the code's
post-hoc path yields `0 - log(1 + 1e-12)`, not the claimed
`0 + log(1 + 1e-12)`. -/
theorem posthoc_shift_not_additive_cx :
    posthocAdjustRow [(0 : ℝ)] [1] 1 ≠ [(0 : ℝ) + adjTerm 1 1] := by
  have ht : 0 < adjTerm 1 1 := by
    unfold adjTerm adjTermArg
    rw [Real.one_rpow]
    exact Real.log_pos (by norm_num)
  intro h
  simp only [posthocAdjustRow, List.zipWith, List.cons.injEq, and_true] at h
  linarith

/-- C1 (amended).  For every logits matrix, base-probability vector and
temperature, the shift is the per-class term `log(p_j ** tau + 1e-12)`
broadcast across the batch dimension; the loss-mode transform adds it,
while the post-hoc correction of evaluation-time logits subtracts it. -/
theorem adjust_shift_per_class (L : List (List ℝ)) (p : List ℝ) (tau : ℝ)
    (hlen : ∀ row ∈ L, row.length = p.length) :
    ∀ row ∈ L, ∀ j, j < p.length →
      (lossAdjustRow row p tau).getD j 0 = row.getD j 0 + adjTerm (p.getD j 0) tau ∧
      (posthocAdjustRow row p tau).getD j 0 = row.getD j 0 - adjTerm (p.getD j 0) tau := by
  intro row hrow j hj
  have hjr : j < row.length := by rw [hlen row hrow]; exact hj
  constructor
  · unfold lossAdjustRow
    exact getD_zipWith (fun x pj => x + adjTerm pj tau) row p j hjr hj
  · unfold posthocAdjustRow
    exact getD_zipWith (fun x pj => x - adjTerm pj tau) row p j hjr hj

/-- Witness for `adjust_shift_per_class` at `L = [[0]]`, `p = [1]`,
`tau = 2`, class `0`. -/
theorem adjust_shift_per_class_witness :
    (∀ row ∈ [[(0 : ℝ)]], row.length = [(1 : ℝ)].length) ∧
    ((lossAdjustRow [(0 : ℝ)] [1] 2).getD 0 0 =
        ([(0 : ℝ)] : List ℝ).getD 0 0 + adjTerm (([(1 : ℝ)] : List ℝ).getD 0 0) 2 ∧
      (posthocAdjustRow [(0 : ℝ)] [1] 2).getD 0 0 =
        ([(0 : ℝ)] : List ℝ).getD 0 0 - adjTerm (([(1 : ℝ)] : List ℝ).getD 0 0) 2) := by
  refine ⟨by intro row h; simp at h; simp [h], ?_⟩
  exact adjust_shift_per_class [[(0 : ℝ)]] [1] 2
    (by intro row h; simp at h; simp [h]) [(0 : ℝ)] (by simp) 0 (by simp)

lemma loss_after_posthoc_row (row p : List ℝ) (tau : ℝ) (h : row.length = p.length) :
    lossAdjustRow (posthocAdjustRow row p tau) p tau = row := by
  induction row generalizing p with
  | nil =>
    cases p with
    | nil => rfl
    | cons q qs => simp at h
  | cons x xs ih =>
    cases p with
    | nil => simp at h
    | cons q qs =>
      simp only [posthocAdjustRow, lossAdjustRow, List.zipWith] at *
      rw [sub_add_cancel]
      have := ih qs (by simpa using h)
      simp only [posthocAdjustRow, lossAdjustRow] at this
      rw [this]

/-- C10.  The two code paths apply the per-class log-prior term with
opposite signs: adding the loss-mode shift `log(p ** tau + 1e-12)` to
the posthoc-adjusted logits recovers the raw logits exactly. -/
theorem loss_shift_inverts_posthoc_shift (L : List (List ℝ)) (p : List ℝ)
    (tau : ℝ) (hlen : ∀ row ∈ L, row.length = p.length) :
    (L.map (fun row => posthocAdjustRow row p tau)).map
      (fun row => lossAdjustRow row p tau) = L := by
  induction L with
  | nil => rfl
  | cons row L ih =>
    simp only [List.map]
    rw [loss_after_posthoc_row row p tau (hlen row (by simp))]
    rw [ih (fun r hr => hlen r (by simp [hr]))]

/-- Witness for `loss_shift_inverts_posthoc_shift` at `L = [[1, 2]]`,
`p = [3, 4]`, `tau = 5`. -/
theorem loss_shift_inverts_posthoc_shift_witness :
    (∀ row ∈ [[(1 : ℝ), 2]], row.length = [(3 : ℝ), 4].length) ∧
    ([[(1 : ℝ), 2]].map (fun row => posthocAdjustRow row [3, 4] 5)).map
      (fun row => lossAdjustRow row [3, 4] 5) = [[(1 : ℝ), 2]] := by
  refine ⟨by intro row h; simp at h; simp [h], ?_⟩
  exact loss_shift_inverts_posthoc_shift [[(1 : ℝ), 2]] [3, 4] 5
    (by intro row h; simp at h; simp [h])

/-- C6.  For every base-probability vector with non-negative entries and
every positive temperature, the argument of the logarithm in the
adjustment term is strictly positive for every class (the `1e-12` guard
is added before the logarithm), and the adjustment term itself is
bounded below by `log(1e-12)` — a finite real — so a zero prior never
produces `-inf` or `NaN`. -/
theorem adjTerm_finite (p : List ℝ) (tau : ℝ) (hp : ∀ x ∈ p, 0 ≤ x)
    (htau : 0 < tau) :
    ∀ x ∈ p, 0 < adjTermArg x tau ∧ Real.log 1e-12 ≤ adjTerm x tau := by
  intro x hx
  have h0 : 0 ≤ x ^ tau := Real.rpow_nonneg (hp x hx) tau
  have harg : 0 < adjTermArg x tau := by
    unfold adjTermArg
    have : (0 : ℝ) < 1e-12 := by norm_num
    linarith
  refine ⟨harg, ?_⟩
  unfold adjTerm adjTermArg
  apply Real.log_le_log (by norm_num)
  linarith

/-- Witness for `adjTerm_finite` at `p = [0, 1/2]`, `tau = 1`: covers the
zero-prior class. -/
theorem adjTerm_finite_witness :
    (∀ x ∈ [(0 : ℝ), 1/2], 0 ≤ x) ∧ (0 : ℝ) < 1 ∧
    (∀ x ∈ [(0 : ℝ), 1/2], 0 < adjTermArg x 1 ∧ Real.log 1e-12 ≤ adjTerm x 1) := by
  refine ⟨?_, by norm_num, ?_⟩
  · intro x hx
    simp only [List.mem_cons, List.mem_singleton] at hx
    rcases hx with h | h | h <;> simp_all <;> norm_num
  · exact adjTerm_finite [(0 : ℝ), 1/2] 1
      (by intro x hx
          simp only [List.mem_cons, List.mem_singleton] at hx
          rcases hx with h | h | h <;> simp_all <;> norm_num)
      (by norm_num)

/-- C4.  The claim asserts that constructing the loss function with
`use_adjustment` true and absent base probabilities fails fast, before
any batch is processed.  In the code, `build_loss_fn(True, None, tau)`
only defines and returns the inner closure, so construction succeeds:
at `tau = 1` the builder returns the closure, not an error. -/
theorem build_loss_fn_lazy_cx :
    build_loss_fn true none 1 = Except.ok (loss_fn true none 1) ∧
    build_loss_fn true none 1 ≠ Except.error () := by
  exact ⟨rfl, by simp [build_loss_fn]⟩

/-- C4 (amended).  Constructing with `use_adjustment` true and absent
base probabilities returns a closure without error; the failure surfaces
on the first invocation of the loss function — that is, while the first
batch is processed — raising an error (`None ** tau` is a `TypeError`)
on every call, and never silently computing the unadjusted loss. -/
theorem loss_fn_raises_on_absent_probs (tau : ℝ)
    (f : List ℕ → List (List ℝ) → Except Unit ℝ)
    (hf : build_loss_fn true none tau = Except.ok f) :
    ∀ labels logits, f labels logits = Except.error () ∧
      f labels logits ≠ Except.ok (meanCE labels logits) := by
  have hfe : loss_fn true none tau = f := by
    have := hf
    unfold build_loss_fn at this
    exact Except.ok.inj this
  intro labels logits
  rw [← hfe]
  exact ⟨rfl, by simp [loss_fn]⟩

/-- Witness for `loss_fn_raises_on_absent_probs` at `tau = 1`, one batch
of one example. -/
theorem loss_fn_raises_on_absent_probs_witness :
    build_loss_fn true none 1 = Except.ok (loss_fn true none 1) ∧
    (loss_fn true none 1 [0] [[(0 : ℝ)]] = Except.error () ∧
      loss_fn true none 1 [0] [[(0 : ℝ)]] ≠ Except.ok (meanCE [0] [[(0 : ℝ)]])) := by
  exact ⟨rfl, loss_fn_raises_on_absent_probs 1 (loss_fn true none 1) rfl [0] [[(0 : ℝ)]]⟩

lemma exp_sum_pos (row : List ℝ) (h : row ≠ []) : 0 < (row.map Real.exp).sum := by
  apply List.sum_pos
  · intro x hx
    simp only [List.mem_map] at hx
    obtain ⟨a, _, ha⟩ := hx
    rw [← ha]
    exact Real.exp_pos a
  · simpa using h

lemma sparseCE_eq_spec (y : ℕ) (row : List ℝ) (h : row ≠ []) :
    sparseCE y row = specSparseCE y row := by
  have hS : 0 < (row.map Real.exp).sum := exp_sum_pos row h
  unfold sparseCE specSparseCE
  rw [Real.log_div (Real.exp_ne_zero _) (ne_of_gt hS), Real.log_exp]
  ring

lemma zipWith_CE_eq_spec :
    ∀ (labels : List ℕ) (logits : List (List ℝ)),
      (∀ pr ∈ labels.zip logits, pr.2 ≠ []) →
      List.zipWith sparseCE labels logits = List.zipWith specSparseCE labels logits := by
  intro labels
  induction labels with
  | nil => intro logits _; rfl
  | cons y ys ih =>
    intro logits h
    cases logits with
    | nil => rfl
    | cons row rows =>
      simp only [List.zipWith]
      rw [sparseCE_eq_spec y row (h (y, row) (by simp [List.zip])),
        ih rows (fun pr hpr => h pr
          (by simp only [List.zip] at *; exact List.mem_cons_of_mem _ hpr))]

/-- C5.  A loss function built with `use_adjustment` false returns the
same value for every choice of base probabilities (present or absent)
and every temperature; that value is the plain sparse categorical cross
entropy averaged over the batch — stated against `specMeanCE`, the
spec-worded softmax formulation — so the adjustment path is fully inert. -/
theorem loss_fn_unadjusted_inert (bp bp' : Option (List ℝ)) (tau tau' : ℝ)
    (labels : List ℕ) (logits : List (List ℝ))
    (hrows : ∀ pr ∈ labels.zip logits, pr.2 ≠ []) :
    loss_fn false bp tau labels logits = loss_fn false bp' tau' labels logits ∧
    loss_fn false bp tau labels logits = Except.ok (meanCE labels logits) ∧
    loss_fn false bp tau labels logits = Except.ok (specMeanCE labels logits) := by
  have h1 : loss_fn false bp tau labels logits = Except.ok (meanCE labels logits) := rfl
  have h2 : loss_fn false bp' tau' labels logits = Except.ok (meanCE labels logits) := rfl
  refine ⟨h1.trans h2.symm, h1, ?_⟩
  have hz := zipWith_CE_eq_spec labels logits hrows
  have hm : meanCE labels logits = specMeanCE labels logits := by
    unfold meanCE specMeanCE
    rw [hz]
  rw [h1, hm]

/-- Witness for `loss_fn_unadjusted_inert`: absent versus present base
probabilities, two temperatures, one batch of one two-class example. -/
theorem loss_fn_unadjusted_inert_witness :
    (∀ pr ∈ ([0] : List ℕ).zip [[(0 : ℝ), 1]], pr.2 ≠ []) ∧
    (loss_fn false none 1 [0] [[(0 : ℝ), 1]] = loss_fn false (some [1]) 2 [0] [[(0 : ℝ), 1]] ∧
      loss_fn false none 1 [0] [[(0 : ℝ), 1]] = Except.ok (meanCE [0] [[(0 : ℝ), 1]]) ∧
      loss_fn false none 1 [0] [[(0 : ℝ), 1]] = Except.ok (specMeanCE [0] [[(0 : ℝ), 1]])) := by
  have hside : ∀ pr ∈ ([0] : List ℕ).zip [[(0 : ℝ), 1]], pr.2 ≠ [] := by
    intro pr hpr
    simp only [List.zip, List.zipWith, List.mem_singleton] at hpr
    rw [hpr]
    exact List.cons_ne_nil _ _
  exact ⟨hside, loss_fn_unadjusted_inert none (some [1]) 1 2 [0] [[(0 : ℝ), 1]] hside⟩


lemma trainStep_plain_eq {π ι : Type} (M : Collab π ι) (bp : Option (List ℝ))
    (tau : ℝ) (st : RunState π) (b : ι × List ℕ) :
    trainStep M (loss_fn false bp tau) st b = Except.ok { st with
      params := M.applyGrads st.params
        (meanCE b.2 (M.forward st.params true b.1) + M.regLoss st.params),
      train_acc_metric := accUpdate st.train_acc_metric b.2
        (M.forward st.params true b.1) } := rfl

lemma trainPass_plain_ok {π ι : Type} (M : Collab π ι) (bp : Option (List ℝ))
    (tau : ℝ) : ∀ (bs : List (ι × List ℕ)) (st : RunState π),
    ∃ st', trainPass M (loss_fn false bp tau) bs st = Except.ok st' := by
  intro bs
  induction bs with
  | nil => intro st; exact ⟨st, rfl⟩
  | cons b bs ih =>
    intro st
    rw [trainPass, trainStep_plain_eq]
    exact ih _

lemma testStep_false_eq {π ι : Type} (M : Collab π ι) (bp : Option (List ℝ))
    (tau : ℝ) (st : RunState π) (b : ι × List ℕ) :
    testStep M false bp tau st b = Except.ok { st with
      test_acc_metric := accUpdate st.test_acc_metric b.2
        (M.forward st.params false b.1) } := rfl

lemma testPass_false_ok {π ι : Type} (M : Collab π ι) (bp : Option (List ℝ))
    (tau : ℝ) : ∀ (bs : List (ι × List ℕ)) (st : RunState π),
    ∃ st', testPass M false bp tau bs st = Except.ok st' := by
  intro bs
  induction bs with
  | nil => intro st; exact ⟨st, rfl⟩
  | cons b bs ih =>
    intro st
    rw [testPass, testStep_false_eq]
    exact ih _

lemma runEpoch_false_eq {π ι : Type} (M : Collab π ι)
    (lf : List ℕ → List (List ℝ) → Except Unit ℝ) (bp : Option (List ℝ))
    (tau : ℝ) (st st1 st3 : RunState π)
    (h1 : trainPass M lf M.trainBatches st = Except.ok st1)
    (h3 : testPass M false bp tau M.testBatches
      { st1 with train_acc_metric := accInit } = Except.ok st3) :
    runEpoch M lf false bp tau st = Except.ok
      ({ st3 with test_acc_metric := accInit },
        ⟨accResult st1.train_acc_metric, accResult st3.test_acc_metric, none⟩) := by
  simp only [runEpoch, h1, h3]
  rfl

lemma runEpoch_plain_ok {π ι : Type} (M : Collab π ι) (bp : Option (List ℝ))
    (tau : ℝ) (st : RunState π) :
    ∃ st' rep, runEpoch M (loss_fn false bp tau) false bp tau st =
      Except.ok (st', rep) := by
  obtain ⟨st1, h1⟩ := trainPass_plain_ok M bp tau M.trainBatches st
  obtain ⟨st3, h3⟩ := testPass_false_ok M bp tau M.testBatches
    { st1 with train_acc_metric := accInit }
  exact ⟨_, _, runEpoch_false_eq M (loss_fn false bp tau) bp tau st st1 st3 h1 h3⟩

lemma runEpochs_plain_ok {π ι : Type} (M : Collab π ι) (bp : Option (List ℝ))
    (tau : ℝ) : ∀ (n : ℕ) (st : RunState π),
    ∃ st' reps, runEpochs M (loss_fn false bp tau) false bp tau n st =
      Except.ok (st', reps) := by
  intro n
  induction n with
  | zero => intro st; exact ⟨st, [], rfl⟩
  | succ n ih =>
    intro st
    obtain ⟨st1, rep, h1⟩ := runEpoch_plain_ok M bp tau st
    obtain ⟨st2, reps, h2⟩ := ih st1
    refine ⟨st2, rep :: reps, ?_⟩
    simp only [runEpochs, h1, h2]

/-- C2.  When the base-probability file is absent at startup, `main`
raises fatally before any training step for modes `posthoc` and `loss`
(the whole run is the propagated error, whatever the dataset, model,
optimizer or epoch count), while for mode `baseline` the loader
substitutes no base probabilities (`None`) and the run proceeds to a
normal result without raising. -/
theorem absent_probs_fatal_iff_adjusting {π ι : Type} (M : Collab π ι)
    (mode : Mode) (tau : ℝ) :
    (mode = Mode.posthoc ∨ mode = Mode.loss →
      mainRun M mode none tau = Except.error ()) ∧
    (mode = Mode.baseline →
      load_base_probs none mode = Except.ok none ∧
      ∃ reps, mainRun M mode none tau = Except.ok reps) := by
  constructor
  · intro h
    have hl : load_base_probs none mode = Except.error () := by
      unfold load_base_probs
      simp [h]
    rw [mainRun, hl]
  · intro h
    subst h
    have hl : load_base_probs none Mode.baseline = Except.ok none := rfl
    refine ⟨hl, ?_⟩
    obtain ⟨st', reps, hr⟩ := runEpochs_plain_ok M none tau M.numEpochs
      ⟨M.initParams, accInit, accInit, accInit⟩
    refine ⟨reps, ?_⟩
    rw [mainRun, hl]
    show (match runEpochs M (loss_fn (modeUsesLaLoss Mode.baseline) none tau)
        (posthoc_adjusting Mode.baseline) none tau M.numEpochs
        ⟨M.initParams, accInit, accInit, accInit⟩ with
      | Except.error e => Except.error e
      | Except.ok (_, reps) => Except.ok reps) = Except.ok reps
    rw [show modeUsesLaLoss Mode.baseline = false from rfl,
      show posthoc_adjusting Mode.baseline = false from rfl, hr]

/-- Witness for `absent_probs_fatal_iff_adjusting`: mode `loss` with the
file absent errors out; mode `baseline` with the file absent loads
`None` and completes its one (empty) epoch. -/
theorem absent_probs_fatal_iff_adjusting_witness :
    (Mode.loss = Mode.posthoc ∨ Mode.loss = Mode.loss) ∧
    mainRun collabW Mode.loss none 1 = Except.error () ∧
    (Mode.baseline = Mode.baseline) ∧
    (load_base_probs none Mode.baseline = Except.ok none ∧
      ∃ reps, mainRun collabW Mode.baseline none 1 = Except.ok reps) :=
  ⟨Or.inr rfl,
    (absent_probs_fatal_iff_adjusting collabW Mode.loss 1).1 (Or.inr rfl),
    rfl,
    (absent_probs_fatal_iff_adjusting collabW Mode.baseline 1).2 rfl⟩

lemma runEpoch_adj_isSome {π ι : Type} (M : Collab π ι)
    (lf : List ℕ → List (List ℝ) → Except Unit ℝ) (posthoc : Bool)
    (bp : Option (List ℝ)) (tau : ℝ) (st st' : RunState π) (rep : EpochReport)
    (h : runEpoch M lf posthoc bp tau st = Except.ok (st', rep)) :
    rep.adjAcc.isSome = posthoc := by
  cases h1 : trainPass M lf M.trainBatches st with
  | error e => simp [runEpoch, h1] at h
  | ok st1 =>
    cases h3 : testPass M posthoc bp tau M.testBatches
        { st1 with train_acc_metric := accInit } with
    | error e => simp [runEpoch, h1, h3] at h
    | ok st3 =>
      cases posthoc with
      | false =>
        simp only [runEpoch, h1, h3, Bool.false_eq_true, if_false,
          Except.ok.injEq, Prod.mk.injEq] at h
        rw [← h.2]
        rfl
      | true =>
        simp only [runEpoch, h1, h3, if_true, Except.ok.injEq,
          Prod.mk.injEq] at h
        rw [← h.2]
        rfl

lemma runEpochs_adj_isSome {π ι : Type} (M : Collab π ι)
    (lf : List ℕ → List (List ℝ) → Except Unit ℝ) (posthoc : Bool)
    (bp : Option (List ℝ)) (tau : ℝ) :
    ∀ (n : ℕ) (st st' : RunState π) (reps : List EpochReport),
      runEpochs M lf posthoc bp tau n st = Except.ok (st', reps) →
      ∀ r ∈ reps, r.adjAcc.isSome = posthoc := by
  intro n
  induction n with
  | zero =>
    intro st st' reps h
    simp only [runEpochs, Except.ok.injEq, Prod.mk.injEq] at h
    rw [← h.2]
    intro r hr
    exact absurd hr (List.not_mem_nil r)
  | succ n ih =>
    intro st st' reps h
    cases h1 : runEpoch M lf posthoc bp tau st with
    | error e => simp [runEpochs, h1] at h
    | ok pr =>
      obtain ⟨st1, rep⟩ := pr
      cases h2 : runEpochs M lf posthoc bp tau n st1 with
      | error e => simp [runEpochs, h1, h2] at h
      | ok pr2 =>
        obtain ⟨st2, reps'⟩ := pr2
        simp only [runEpochs, h1, h2, Except.ok.injEq, Prod.mk.injEq] at h
        rw [← h.2]
        intro r hr
        rcases List.mem_cons.mp hr with hre | hrm
        · rw [hre]
          exact runEpoch_adj_isSome M lf posthoc bp tau st st1 rep h1
        · exact ih st1 st2 reps' h2 r hrm

/-- C3.  Mode gating is mutually exclusive: the loss closure that `main`
builds (with flag `mode == 'loss'`) shifts the logits by the log-prior
term exactly when the mode is `loss` and is the plain unadjusted cross
entropy for the other two modes regardless of the base probabilities;
and a run's per-epoch reports carry the second, adjusted test-accuracy
stream exactly when the mode is `posthoc` (so in `baseline` mode no
adjustment occurs anywhere, and in `loss` mode there is no separate
evaluation-time adjustment). -/
theorem mode_gating_exclusive (tau : ℝ) (p : List ℝ) :
    (∀ (labels : List ℕ) (logits : List (List ℝ)),
      loss_fn (modeUsesLaLoss Mode.loss) (some p) tau labels logits =
        Except.ok (meanCE labels (logits.map (fun row => lossAdjustRow row p tau)))) ∧
    (∀ (mode : Mode), mode ≠ Mode.loss →
      ∀ (bp : Option (List ℝ)) (labels : List ℕ) (logits : List (List ℝ)),
        loss_fn (modeUsesLaLoss mode) bp tau labels logits =
          Except.ok (meanCE labels logits)) ∧
    (∀ (π ι : Type) (M : Collab π ι) (mode : Mode) (fc : Option (List ℝ))
        (reps : List EpochReport),
      mainRun M mode fc tau = Except.ok reps →
      ∀ r ∈ reps, (r.adjAcc.isSome = true ↔ mode = Mode.posthoc)) := by
  refine ⟨fun labels logits => rfl, ?_, ?_⟩
  · intro mode hne bp labels logits
    cases mode with
    | baseline => rfl
    | posthoc => rfl
    | loss => exact absurd rfl hne
  · intro π ι M mode fc reps h r hr
    cases hl : load_base_probs fc mode with
    | error e => simp [mainRun, hl] at h
    | ok bp =>
      cases hr2 : runEpochs M (loss_fn (modeUsesLaLoss mode) bp tau)
          (posthoc_adjusting mode) bp tau M.numEpochs
          ⟨M.initParams, accInit, accInit, accInit⟩ with
      | error e =>
        rw [mainRun, hl] at h
        simp only [build_loss_fn, hr2] at h
        exact Except.noConfusion h
      | ok pr =>
        obtain ⟨stF, reps0⟩ := pr
        rw [mainRun, hl] at h
        simp only [build_loss_fn, hr2, Except.ok.injEq] at h
        rw [← h] at hr
        have := runEpochs_adj_isSome M (loss_fn (modeUsesLaLoss mode) bp tau)
          (posthoc_adjusting mode) bp tau M.numEpochs
          ⟨M.initParams, accInit, accInit, accInit⟩ stF reps0 hr2 r hr
        rw [this]
        unfold posthoc_adjusting
        exact decide_eq_true_iff

/-- Witness for `mode_gating_exclusive`: the loss-mode closure on one
concrete batch, the baseline closure on the same batch, and a completed
posthoc run (one empty epoch) whose single report carries the adjusted
stream. -/
theorem mode_gating_exclusive_witness :
    loss_fn (modeUsesLaLoss Mode.loss) (some [1]) 1 [0] [[(0 : ℝ)]] =
      Except.ok (meanCE [0] ([[(0 : ℝ)]].map (fun row => lossAdjustRow row [1] 1))) ∧
    (Mode.baseline ≠ Mode.loss) ∧
    loss_fn (modeUsesLaLoss Mode.baseline) none 1 [0] [[(0 : ℝ)]] =
      Except.ok (meanCE [0] [[(0 : ℝ)]]) ∧
    mainRun collabW Mode.posthoc (some [1]) 1 =
      Except.ok [⟨accResult accInit, accResult accInit, some (accResult accInit)⟩] ∧
    ((⟨accResult accInit, accResult accInit,
        some (accResult accInit)⟩ : EpochReport).adjAcc.isSome = true ↔
      Mode.posthoc = Mode.posthoc) := by
  have hrun : mainRun collabW Mode.posthoc (some [1]) 1 =
      Except.ok [⟨accResult accInit, accResult accInit, some (accResult accInit)⟩] := rfl
  refine ⟨(mode_gating_exclusive 1 [1]).1 [0] [[(0 : ℝ)]],
    fun hc => Mode.noConfusion hc,
    (mode_gating_exclusive 1 [1]).2.1 Mode.baseline (fun hc => Mode.noConfusion hc)
      none [0] [[(0 : ℝ)]],
    hrun,
    (mode_gating_exclusive 1 [1]).2.2 Unit Unit collabW Mode.posthoc (some [1])
      [⟨accResult accInit, accResult accInit, some (accResult accInit)⟩] hrun
      ⟨accResult accInit, accResult accInit, some (accResult accInit)⟩
      (List.mem_singleton.mpr rfl)⟩

/-- C8.  Whatever loss function is in use (so in every mode, including
`loss` mode, where the closure shifts its own copy of the logits) and
whatever the posthoc flag, the train-accuracy accumulator and the plain
test-accuracy accumulator are updated with exactly the raw logits of the
model's forward pass at the current parameters. -/
theorem metrics_update_with_raw_logits {π ι : Type} (M : Collab π ι)
    (lf : List ℕ → List (List ℝ) → Except Unit ℝ) (posthoc : Bool)
    (bp : Option (List ℝ)) (tau : ℝ) (st : RunState π) (b : ι × List ℕ) :
    (∀ st', trainStep M lf st b = Except.ok st' →
      st'.train_acc_metric =
        accUpdate st.train_acc_metric b.2 (M.forward st.params true b.1)) ∧
    (∀ st', testStep M posthoc bp tau st b = Except.ok st' →
      st'.test_acc_metric =
        accUpdate st.test_acc_metric b.2 (M.forward st.params false b.1)) := by
  constructor
  · intro st' h
    cases hl : lf b.2 (M.forward st.params true b.1) with
    | error e => simp [trainStep, hl] at h
    | ok lv =>
      simp only [trainStep, hl, Except.ok.injEq] at h
      rw [← h]
  · intro st' h
    cases posthoc with
    | false =>
      simp only [testStep, Bool.false_eq_true, if_false, Except.ok.injEq] at h
      rw [← h]
    | true =>
      cases bp with
      | none => simp [testStep] at h
      | some p =>
        simp only [testStep, if_true, Except.ok.injEq] at h
        rw [← h]

/-- Witness for `metrics_update_with_raw_logits`: one concrete train step
and one concrete test step over the trivial collaborators. -/
theorem metrics_update_with_raw_logits_witness :
    (trainStep collabW (loss_fn false none 1) runStateW ((), []) =
      Except.ok ⟨(), accUpdate accInit [] [], accInit, accInit⟩) ∧
    ((⟨(), accUpdate accInit [] [], accInit, accInit⟩ : RunState Unit).train_acc_metric =
      accUpdate runStateW.train_acc_metric [] (collabW.forward runStateW.params true ())) ∧
    (testStep collabW false none 1 runStateW ((), []) =
      Except.ok ⟨(), accInit, accUpdate accInit [] [], accInit⟩) ∧
    ((⟨(), accInit, accUpdate accInit [] [], accInit⟩ : RunState Unit).test_acc_metric =
      accUpdate runStateW.test_acc_metric [] (collabW.forward runStateW.params false ())) := by
  refine ⟨rfl, ?_, rfl, ?_⟩
  · exact (metrics_update_with_raw_logits collabW (loss_fn false none 1) false
      none 1 runStateW ((), [])).1 ⟨(), accUpdate accInit [] [], accInit, accInit⟩ rfl
  · exact (metrics_update_with_raw_logits collabW (loss_fn false none 1) false
      none 1 runStateW ((), [])).2 ⟨(), accInit, accUpdate accInit [] [], accInit⟩ rfl

lemma trainStep_other_metrics {π ι : Type} (M : Collab π ι)
    (lf : List ℕ → List (List ℝ) → Except Unit ℝ) (st : RunState π)
    (b : ι × List ℕ) (st' : RunState π)
    (h : trainStep M lf st b = Except.ok st') :
    st'.test_acc_metric = st.test_acc_metric ∧
    st'.test_adj_acc_metric = st.test_adj_acc_metric := by
  cases hl : lf b.2 (M.forward st.params true b.1) with
  | error e => simp [trainStep, hl] at h
  | ok lv =>
    simp only [trainStep, hl, Except.ok.injEq] at h
    rw [← h]
    exact ⟨rfl, rfl⟩

lemma trainPass_other_metrics {π ι : Type} (M : Collab π ι)
    (lf : List ℕ → List (List ℝ) → Except Unit ℝ) :
    ∀ (bs : List (ι × List ℕ)) (st st' : RunState π),
      trainPass M lf bs st = Except.ok st' →
      st'.test_acc_metric = st.test_acc_metric ∧
      st'.test_adj_acc_metric = st.test_adj_acc_metric := by
  intro bs
  induction bs with
  | nil =>
    intro st st' h
    simp only [trainPass, Except.ok.injEq] at h
    rw [← h]
    exact ⟨rfl, rfl⟩
  | cons b bs ih =>
    intro st st' h
    cases h1 : trainStep M lf st b with
    | error e => simp [trainPass, h1] at h
    | ok st1 =>
      simp only [trainPass, h1] at h
      obtain ⟨ht, ha⟩ := trainStep_other_metrics M lf st b st1 h1
      obtain ⟨ht', ha'⟩ := ih st1 st' h
      exact ⟨ht'.trans ht, ha'.trans ha⟩

lemma testStep_keeps {π ι : Type} (M : Collab π ι) (posthoc : Bool)
    (bp : Option (List ℝ)) (tau : ℝ) (st : RunState π) (b : ι × List ℕ)
    (st' : RunState π) (h : testStep M posthoc bp tau st b = Except.ok st') :
    st'.train_acc_metric = st.train_acc_metric ∧
    (posthoc = false → st'.test_adj_acc_metric = st.test_adj_acc_metric) := by
  cases posthoc with
  | false =>
    simp only [testStep, Bool.false_eq_true, if_false, Except.ok.injEq] at h
    rw [← h]
    exact ⟨rfl, fun _ => rfl⟩
  | true =>
    cases bp with
    | none => simp [testStep] at h
    | some p =>
      simp only [testStep, if_true, Except.ok.injEq] at h
      rw [← h]
      exact ⟨rfl, fun hc => Bool.noConfusion hc⟩

lemma testPass_keeps {π ι : Type} (M : Collab π ι) (posthoc : Bool)
    (bp : Option (List ℝ)) (tau : ℝ) :
    ∀ (bs : List (ι × List ℕ)) (st st' : RunState π),
      testPass M posthoc bp tau bs st = Except.ok st' →
      st'.train_acc_metric = st.train_acc_metric ∧
      (posthoc = false → st'.test_adj_acc_metric = st.test_adj_acc_metric) := by
  intro bs
  induction bs with
  | nil =>
    intro st st' h
    simp only [testPass, Except.ok.injEq] at h
    rw [← h]
    exact ⟨rfl, fun _ => rfl⟩
  | cons b bs ih =>
    intro st st' h
    cases h1 : testStep M posthoc bp tau st b with
    | error e => simp [testPass, h1] at h
    | ok st1 =>
      simp only [testPass, h1] at h
      obtain ⟨ht, ha⟩ := testStep_keeps M posthoc bp tau st b st1 h1
      obtain ⟨ht', ha'⟩ := ih st1 st' h
      exact ⟨ht'.trans ht, fun hp => (ha' hp).trans (ha hp)⟩

lemma runEpoch_fresh {π ι : Type} (M : Collab π ι)
    (lf : List ℕ → List (List ℝ) → Except Unit ℝ) (posthoc : Bool)
    (bp : Option (List ℝ)) (tau : ℝ) (st st' : RunState π) (rep : EpochReport)
    (hf : freshAccs st)
    (h : runEpoch M lf posthoc bp tau st = Except.ok (st', rep)) :
    freshAccs st' := by
  cases h1 : trainPass M lf M.trainBatches st with
  | error e => simp [runEpoch, h1] at h
  | ok st1 =>
    cases h3 : testPass M posthoc bp tau M.testBatches
        { st1 with train_acc_metric := accInit } with
    | error e => simp [runEpoch, h1, h3] at h
    | ok st3 =>
      have hkeep := testPass_keeps M posthoc bp tau M.testBatches
        { st1 with train_acc_metric := accInit } st3 h3
      cases posthoc with
      | false =>
        simp only [runEpoch, h1, h3, Bool.false_eq_true, if_false,
          Except.ok.injEq, Prod.mk.injEq] at h
        rw [← h.1]
        have hadj1 := (trainPass_other_metrics M lf M.trainBatches st st1 h1).2
        refine ⟨hkeep.1, rfl, ?_⟩
        show st3.test_adj_acc_metric = accInit
        rw [hkeep.2 rfl]
        show st1.test_adj_acc_metric = accInit
        rw [hadj1]
        exact hf.2.2
      | true =>
        simp only [runEpoch, h1, h3, if_true, Except.ok.injEq,
          Prod.mk.injEq] at h
        rw [← h.1]
        exact ⟨hkeep.1, rfl, rfl⟩

lemma runEpochs_fresh {π ι : Type} (M : Collab π ι)
    (lf : List ℕ → List (List ℝ) → Except Unit ℝ) (posthoc : Bool)
    (bp : Option (List ℝ)) (tau : ℝ) :
    ∀ (n : ℕ) (st stF : RunState π) (reps : List EpochReport),
      freshAccs st →
      runEpochs M lf posthoc bp tau n st = Except.ok (stF, reps) →
      freshAccs stF := by
  intro n
  induction n with
  | zero =>
    intro st stF reps hf h
    simp only [runEpochs, Except.ok.injEq, Prod.mk.injEq] at h
    rw [← h.1]
    exact hf
  | succ n ih =>
    intro st stF reps hf h
    cases h1 : runEpoch M lf posthoc bp tau st with
    | error e => simp [runEpochs, h1] at h
    | ok pr =>
      obtain ⟨st1, rep⟩ := pr
      cases h2 : runEpochs M lf posthoc bp tau n st1 with
      | error e => simp [runEpochs, h1, h2] at h
      | ok pr2 =>
        obtain ⟨st2, reps'⟩ := pr2
        simp only [runEpochs, h1, h2, Except.ok.injEq, Prod.mk.injEq] at h
        rw [← h.1]
        exact ih st1 st2 reps'
          (runEpoch_fresh M lf posthoc bp tau st st1 rep hf h1) h2

/-- C9.  Reset discipline of the accuracy accumulators: starting an epoch
with fresh (just-reset) accumulators, the values reported at its end are
read from exactly the accumulator built by that epoch's own train pass
(respectively test pass) from the fresh state, each accumulator is reset
right after being read — so the state leaving the epoch is fresh again —
and the epoch loop preserves this freshness across every epoch, so no
carry-over between epochs or between the train and test streams is
possible. -/
theorem epoch_reports_no_carry_over {π ι : Type} (M : Collab π ι)
    (lf : List ℕ → List (List ℝ) → Except Unit ℝ) (posthoc : Bool)
    (bp : Option (List ℝ)) (tau : ℝ) (st : RunState π) (hf : freshAccs st) :
    (∀ (st' : RunState π) (rep : EpochReport),
      runEpoch M lf posthoc bp tau st = Except.ok (st', rep) →
      freshAccs st' ∧
      ∃ st1 st2, trainPass M lf M.trainBatches st = Except.ok st1 ∧
        rep.trainAcc = accResult st1.train_acc_metric ∧
        testPass M posthoc bp tau M.testBatches
          { st1 with train_acc_metric := accInit } = Except.ok st2 ∧
        rep.testAcc = accResult st2.test_acc_metric ∧
        (posthoc = true → rep.adjAcc = some (accResult st2.test_adj_acc_metric)) ∧
        (posthoc = false → rep.adjAcc = none)) ∧
    (∀ (n : ℕ) (stF : RunState π) (reps : List EpochReport),
      runEpochs M lf posthoc bp tau n st = Except.ok (stF, reps) →
      freshAccs stF) := by
  constructor
  · intro st' rep h
    refine ⟨runEpoch_fresh M lf posthoc bp tau st st' rep hf h, ?_⟩
    cases h1 : trainPass M lf M.trainBatches st with
    | error e => simp [runEpoch, h1] at h
    | ok st1 =>
      cases h3 : testPass M posthoc bp tau M.testBatches
          { st1 with train_acc_metric := accInit } with
      | error e => simp [runEpoch, h1, h3] at h
      | ok st3 =>
        refine ⟨st1, st3, rfl, ?_⟩
        cases posthoc with
        | false =>
          simp only [runEpoch, h1, h3, Bool.false_eq_true, if_false,
            Except.ok.injEq, Prod.mk.injEq] at h
          rw [← h.2]
          exact ⟨rfl, h3, rfl, fun hc => Bool.noConfusion hc, fun _ => rfl⟩
        | true =>
          simp only [runEpoch, h1, h3, if_true, Except.ok.injEq,
            Prod.mk.injEq] at h
          rw [← h.2]
          exact ⟨rfl, h3, rfl, fun _ => rfl, fun hc => Bool.noConfusion hc⟩
  · intro n stF reps h
    exact runEpochs_fresh M lf posthoc bp tau n st stF reps hf h

/-- Witness for `epoch_reports_no_carry_over`: one concrete (empty) epoch
over the trivial collaborators, entered with fresh accumulators. -/
theorem epoch_reports_no_carry_over_witness :
    freshAccs runStateW ∧
    runEpoch collabW (loss_fn false none 1) false none 1 runStateW =
      Except.ok (runStateW, ⟨accResult accInit, accResult accInit, none⟩) ∧
    (freshAccs runStateW ∧
      ∃ st1 st2, trainPass collabW (loss_fn false none 1)
          collabW.trainBatches runStateW = Except.ok st1 ∧
        (⟨accResult accInit, accResult accInit, none⟩ : EpochReport).trainAcc =
          accResult st1.train_acc_metric ∧
        testPass collabW false none 1 collabW.testBatches
          { st1 with train_acc_metric := accInit } = Except.ok st2 ∧
        (⟨accResult accInit, accResult accInit, none⟩ : EpochReport).testAcc =
          accResult st2.test_acc_metric ∧
        (false = true → (⟨accResult accInit, accResult accInit, none⟩ : EpochReport).adjAcc =
          some (accResult st2.test_adj_acc_metric)) ∧
        (false = false → (⟨accResult accInit, accResult accInit, none⟩ : EpochReport).adjAcc =
          none)) := by
  have hf : freshAccs runStateW := ⟨rfl, rfl, rfl⟩
  have hrun : runEpoch collabW (loss_fn false none 1) false none 1 runStateW =
      Except.ok (runStateW, ⟨accResult accInit, accResult accInit, none⟩) := rfl
  exact ⟨hf, hrun,
    (epoch_reports_no_carry_over collabW (loss_fn false none 1) false none 1
      runStateW hf).1 runStateW ⟨accResult accInit, accResult accInit, none⟩ hrun⟩

lemma argmaxGo_shift (c : ℝ) :
    ∀ (xs : List ℝ) (i bi : ℕ) (bv : ℝ),
      argmaxGo i bi (bv - c) (xs.map (fun x => x - c)) = argmaxGo i bi bv xs := by
  intro xs
  induction xs with
  | nil => intro i bi bv; rfl
  | cons x xs ih =>
    intro i bi bv
    simp only [List.map, argmaxGo, sub_lt_sub_iff_right]
    by_cases hlt : bv < x
    · simp only [hlt, if_true]
      exact ih (i + 1) i x
    · simp only [hlt, if_false]
      exact ih (i + 1) bi bv

lemma argmaxIdx_shift (l : List ℝ) (c : ℝ) :
    argmaxIdx (l.map (fun x => x - c)) = argmaxIdx l := by
  cases l with
  | nil => rfl
  | cons x xs =>
    simp only [List.map, argmaxIdx]
    exact argmaxGo_shift c xs 1 0 x

lemma posthocAdjustRow_replicate :
    ∀ (row : List ℝ) (n : ℕ) (c tau : ℝ), row.length = n →
      posthocAdjustRow row (List.replicate n c) tau =
        row.map (fun x => x - adjTerm c tau) := by
  intro row
  induction row with
  | nil => intro n c tau _; simp [posthocAdjustRow]
  | cons x xs ih =>
    intro n c tau h
    cases n with
    | zero => simp at h
    | succ n =>
      simp only [List.replicate, posthocAdjustRow, List.zipWith, List.map]
      have := ih n c tau (by simpa using h)
      simp only [posthocAdjustRow] at this
      rw [this]

lemma countCorrect_argmax_congr :
    ∀ (labels : List ℕ) (logits : List (List ℝ)) (g : List ℝ → List ℝ),
      (∀ row ∈ logits, argmaxIdx (g row) = argmaxIdx row) →
      countCorrect labels (logits.map g) = countCorrect labels logits := by
  intro labels
  induction labels with
  | nil => intro logits g _; rfl
  | cons y ys ih =>
    intro logits g hg
    cases logits with
    | nil => rfl
    | cons row rows =>
      simp only [countCorrect, List.map, List.zipWith, List.sum_cons]
      rw [hg row (by simp)]
      have := ih rows g (fun r hr => hg r (by simp [hr]))
      simp only [countCorrect] at this
      rw [this]

lemma accUpdate_uniform_adjust (s : AccState) (labels : List ℕ)
    (logits : List (List ℝ)) (C : ℕ) (c tau : ℝ)
    (hlen : ∀ row ∈ logits, row.length = C) :
    accUpdate s labels
      (logits.map (fun row => posthocAdjustRow row (List.replicate C c) tau)) =
      accUpdate s labels logits := by
  unfold accUpdate
  have hcc : countCorrect labels
      (logits.map (fun row => posthocAdjustRow row (List.replicate C c) tau)) =
      countCorrect labels logits := by
    apply countCorrect_argmax_congr
    intro row hrow
    rw [posthocAdjustRow_replicate row C c tau (hlen row hrow)]
    exact argmaxIdx_shift row (adjTerm c tau)
  rw [hcc]

lemma testStep_uniform_inv {π ι : Type} (M : Collab π ι) (C : ℕ) (c tau : ℝ)
    (hC : ∀ (pp : π) (fl : Bool) (x : ι), ∀ row ∈ M.forward pp fl x, row.length = C)
    (st st' : RunState π) (b : ι × List ℕ)
    (hinv : st.test_adj_acc_metric = st.test_acc_metric)
    (h : testStep M true (some (List.replicate C c)) tau st b = Except.ok st') :
    st'.test_adj_acc_metric = st'.test_acc_metric := by
  simp only [testStep, if_true, Except.ok.injEq] at h
  rw [← h]
  show accUpdate st.test_adj_acc_metric b.2
      ((M.forward st.params false b.1).map
        (fun row => posthocAdjustRow row (List.replicate C c) tau)) =
    accUpdate st.test_acc_metric b.2 (M.forward st.params false b.1)
  rw [accUpdate_uniform_adjust st.test_adj_acc_metric b.2
    (M.forward st.params false b.1) C c tau (hC st.params false b.1), hinv]

lemma testPass_uniform_inv {π ι : Type} (M : Collab π ι) (C : ℕ) (c tau : ℝ)
    (hC : ∀ (pp : π) (fl : Bool) (x : ι), ∀ row ∈ M.forward pp fl x, row.length = C) :
    ∀ (bs : List (ι × List ℕ)) (st st' : RunState π),
      st.test_adj_acc_metric = st.test_acc_metric →
      testPass M true (some (List.replicate C c)) tau bs st = Except.ok st' →
      st'.test_adj_acc_metric = st'.test_acc_metric := by
  intro bs
  induction bs with
  | nil =>
    intro st st' hinv h
    simp only [testPass, Except.ok.injEq] at h
    rw [← h]
    exact hinv
  | cons b bs ih =>
    intro st st' hinv h
    cases h1 : testStep M true (some (List.replicate C c)) tau st b with
    | error e => simp [testPass, h1] at h
    | ok st1 =>
      simp only [testPass, h1] at h
      exact ih st1 st' (testStep_uniform_inv M C c tau hC st st1 b hinv h1) h

lemma runEpoch_uniform_inv {π ι : Type} (M : Collab π ι)
    (lf : List ℕ → List (List ℝ) → Except Unit ℝ) (C : ℕ) (c tau : ℝ)
    (hC : ∀ (pp : π) (fl : Bool) (x : ι), ∀ row ∈ M.forward pp fl x, row.length = C)
    (st st' : RunState π) (rep : EpochReport)
    (hinv : st.test_adj_acc_metric = st.test_acc_metric)
    (h : runEpoch M lf true (some (List.replicate C c)) tau st =
      Except.ok (st', rep)) :
    rep.adjAcc = some rep.testAcc ∧
    st'.test_adj_acc_metric = st'.test_acc_metric := by
  cases h1 : trainPass M lf M.trainBatches st with
  | error e => simp [runEpoch, h1] at h
  | ok st1 =>
    cases h3 : testPass M true (some (List.replicate C c)) tau M.testBatches
        { st1 with train_acc_metric := accInit } with
    | error e => simp [runEpoch, h1, h3] at h
    | ok st3 =>
      have hmet := trainPass_other_metrics M lf M.trainBatches st st1 h1
      have hinv3 : st3.test_adj_acc_metric = st3.test_acc_metric := by
        apply testPass_uniform_inv M C c tau hC M.testBatches
          { st1 with train_acc_metric := accInit } st3 _ h3
        show st1.test_adj_acc_metric = st1.test_acc_metric
        rw [hmet.1, hmet.2]
        exact hinv
      simp only [runEpoch, h1, h3, if_true, Except.ok.injEq, Prod.mk.injEq] at h
      constructor
      · rw [← h.2]
        show some (accResult st3.test_adj_acc_metric) =
          some (accResult st3.test_acc_metric)
        rw [hinv3]
      · rw [← h.1]

lemma runEpochs_uniform_inv {π ι : Type} (M : Collab π ι)
    (lf : List ℕ → List (List ℝ) → Except Unit ℝ) (C : ℕ) (c tau : ℝ)
    (hC : ∀ (pp : π) (fl : Bool) (x : ι), ∀ row ∈ M.forward pp fl x, row.length = C) :
    ∀ (n : ℕ) (st stF : RunState π) (reps : List EpochReport),
      st.test_adj_acc_metric = st.test_acc_metric →
      runEpochs M lf true (some (List.replicate C c)) tau n st =
        Except.ok (stF, reps) →
      ∀ r ∈ reps, r.adjAcc = some r.testAcc := by
  intro n
  induction n with
  | zero =>
    intro st stF reps _ h
    simp only [runEpochs, Except.ok.injEq, Prod.mk.injEq] at h
    rw [← h.2]
    intro r hr
    exact absurd hr (List.not_mem_nil r)
  | succ n ih =>
    intro st stF reps hinv h
    cases h1 : runEpoch M lf true (some (List.replicate C c)) tau st with
    | error e => simp [runEpochs, h1] at h
    | ok pr =>
      obtain ⟨st1, rep⟩ := pr
      cases h2 : runEpochs M lf true (some (List.replicate C c)) tau n st1 with
      | error e => simp [runEpochs, h1, h2] at h
      | ok pr2 =>
        obtain ⟨st2, reps'⟩ := pr2
        simp only [runEpochs, h1, h2, Except.ok.injEq, Prod.mk.injEq] at h
        rw [← h.2]
        obtain ⟨hrep, hinv1⟩ :=
          runEpoch_uniform_inv M lf C c tau hC st st1 rep hinv h1
        intro r hr
        rcases List.mem_cons.mp hr with hre | hrm
        · rw [hre]; exact hrep
        · exact ih st1 st2 reps' hinv1 h2 r hrm

/-- C7.  In posthoc mode with a uniform base-probability vector (all `C`
entries equal to `c`, e.g. `[0.25, 0.25, 0.25, 0.25]`) and any
temperature (in particular `tau = 1`), every adjusted logits row differs
from the raw row by the same constant `log(c ** tau + 1e-12)` for every
class, so the argmax ranking is unchanged, and every epoch report of the
run carries an adjusted test accuracy exactly equal to the raw test
accuracy. -/
theorem uniform_prior_posthoc_accuracy {π ι : Type} (M : Collab π ι)
    (C : ℕ) (c tau : ℝ)
    (hC : ∀ (pp : π) (fl : Bool) (x : ι), ∀ row ∈ M.forward pp fl x, row.length = C) :
    (∀ (row : List ℝ), row.length = C →
      (∀ j, j < C →
        (posthocAdjustRow row (List.replicate C c) tau).getD j 0 =
          row.getD j 0 - adjTerm c tau) ∧
      argmaxIdx (posthocAdjustRow row (List.replicate C c) tau) = argmaxIdx row) ∧
    (∀ (reps : List EpochReport),
      mainRun M Mode.posthoc (some (List.replicate C c)) tau = Except.ok reps →
      ∀ r ∈ reps, r.adjAcc = some r.testAcc) := by
  constructor
  · intro row hrow
    constructor
    · intro j hj
      unfold posthocAdjustRow
      rw [getD_zipWith (fun x pj => x - adjTerm pj tau) row (List.replicate C c) j
        (by rw [hrow]; exact hj) (by rw [List.length_replicate]; exact hj)]
      rw [getD_replicate c C j hj]
    · rw [posthocAdjustRow_replicate row C c tau hrow]
      exact argmaxIdx_shift row (adjTerm c tau)
  · intro reps h
    cases hr : runEpochs M
        (loss_fn (modeUsesLaLoss Mode.posthoc) (some (List.replicate C c)) tau)
        (posthoc_adjusting Mode.posthoc) (some (List.replicate C c)) tau
        M.numEpochs ⟨M.initParams, accInit, accInit, accInit⟩ with
    | error e =>
      rw [mainRun] at h
      simp only [load_base_probs, build_loss_fn, hr] at h
      exact Except.noConfusion h
    | ok pr =>
      obtain ⟨stF, reps0⟩ := pr
      rw [mainRun] at h
      simp only [load_base_probs, build_loss_fn, hr, Except.ok.injEq] at h
      rw [← h]
      exact runEpochs_uniform_inv M
        (loss_fn (modeUsesLaLoss Mode.posthoc) (some (List.replicate C c)) tau)
        C c tau hC M.numEpochs ⟨M.initParams, accInit, accInit, accInit⟩
        stF reps0 rfl hr

/-- Witness for `uniform_prior_posthoc_accuracy`: the trivial
collaborators (every forward pass returns no rows, so the row-length
side condition holds with `C = 0`) under a posthoc run with a uniform
prior, whose single epoch report has equal adjusted and raw accuracy. -/
theorem uniform_prior_posthoc_accuracy_witness :
    (∀ (pp : Unit) (fl : Bool) (x : Unit),
      ∀ row ∈ collabW.forward pp fl x, row.length = 0) ∧
    mainRun collabW Mode.posthoc (some (List.replicate 0 (0 : ℝ))) 1 =
      Except.ok [⟨accResult accInit, accResult accInit, some (accResult accInit)⟩] ∧
    (∀ r ∈ [(⟨accResult accInit, accResult accInit,
        some (accResult accInit)⟩ : EpochReport)], r.adjAcc = some r.testAcc) := by
  have hC : ∀ (pp : Unit) (fl : Bool) (x : Unit),
      ∀ row ∈ collabW.forward pp fl x, row.length = 0 := by
    intro pp fl x row hrow
    exact absurd hrow (List.not_mem_nil row)
  have hrun : mainRun collabW Mode.posthoc (some (List.replicate 0 (0 : ℝ))) 1 =
      Except.ok [⟨accResult accInit, accResult accInit, some (accResult accInit)⟩] := rfl
  exact ⟨hC, hrun,
    (uniform_prior_posthoc_accuracy collabW 0 0 1 hC).2
      [⟨accResult accInit, accResult accInit, some (accResult accInit)⟩] hrun⟩
